import Mathlib

/-!
Verification of the Somintfast discovery-and-enrichment pipeline.

This file gives a shallow embedding, in Lean 4, of the core algorithmic parts
of the repository and proves (or refutes) the behavioural properties stated in
its specification:

* the geographic tiler `tileBbox` (bulk-import route),
* the adaptive throttle (`delayMs` / `successStreak` feedback loop),
* the in-run deduplicator (`seenRef` keyed by `identityKey`),
* the budgeted import orchestration loop,
* the email-candidate generator `guessEmails` and its local-part sanitizer,
* the email scorer `finalScore`,
* the failure handling of the Overpass adapter `searchOsmByBbox`.

Modelling conventions:

* JavaScript numbers that only ever hold non-negative integers (`delayMs`,
  `successStreak`, call counters) are modelled as `ℕ`; scores, which can go
  negative after penalties, as `ℤ`; geographic coordinates as `ℚ` (exact
  arithmetic, matching the spec's "up to floating-point tolerance" reading).
* `Math.round x` for non-negative `x` rounds half away from zero, i.e.
  `⌊x + 1/2⌋`; with `delayMs = d : ℕ` this makes
  `Math.round (d * 1.7 + 100) = (17 * d + 1005) / 10` and
  `Math.round (d * 0.85) = (85 * d + 50) / 100` in natural-number division.
* JavaScript truthiness on strings (`""` is falsy) is modelled explicitly at
  each use site; the nullish operator `??` is `Option.getD` / an `orNullish`
  helper.
* Stateful loops become structural recursion with explicit state.
* External I/O (the HTTP fetch, the database insert) becomes an explicit
  oracle argument, so every network/database behaviour is quantified over.
-/

/-! ## Places and the deduplication identity key (src/unnamed/part_009) -/

/-- Normalized business record produced by the OSM adapter (`OsmPlace` in
`src/lib/sources/osm.ts`).  The `location` field of the source is the string
`lat.toFixed(5) ++ ", " ++ lon.toFixed(5)`; its decimal rendering is
floating-point formatting that no claim depends on, so the element's rendered
coordinate display is carried through as given data. -/
structure OsmPlace where
  sourceRef : Option String := none
  name : String
  website : Option String := none
  phone : Option String := none
  email : Option String := none
  address : Option String := none
  location : Option String := none
  tags : List (String × String) := []
deriving DecidableEq, Repr

/-- JavaScript truthiness for an optional string: `undefined` and `""` are
falsy.  `nonemptyOpt (some "")` and `nonemptyOpt none` are both `none`. -/
def nonemptyOpt : Option String → Option String
  | some s => if s = "" then none else some s
  | none => none

/-- The in-request deduplication key of the bulk-import route
(src/unnamed/part_009):
`p.sourceRef ? "osm:" + sourceRef : "name:" + name + "|web:" + (website ?? "") + "|addr:" + (address ?? "")`.
The guard on `sourceRef` is JavaScript truthiness, so an empty-string
`sourceRef` also falls back to the composite key. -/
def fallbackKey (p : OsmPlace) : String :=
  "name:" ++ p.name ++ "|web:" ++ p.website.getD "" ++ "|addr:" ++ p.address.getD ""

/-- Identity key used by `seenRef` in the bulk-import route. -/
def identityKey (p : OsmPlace) : String :=
  match p.sourceRef with
  | some r => if r = "" then fallbackKey p else "osm:" ++ r
  | none => fallbackKey p

/-- One deduplicator decision: admit iff the key is unseen, and record it.
This is the `seenRef.has(ref)` check followed by `seenRef.add(ref)` in the
bulk-import loop, i.e. the spec's `shouldAdmit`. -/
def shouldAdmit (seen : List String) (p : OsmPlace) : Bool × List String :=
  let k := identityKey p
  if k ∈ seen then (false, seen) else (true, k :: seen)

/-- Admission decisions, in order, for a sequence of places fed through one
deduplicator (one decision per input place). -/
def dedupFlags : List OsmPlace → List String → List Bool
  | [], _ => []
  | p :: ps, seen =>
    if identityKey p ∈ seen then false :: dedupFlags ps seen
    else true :: dedupFlags ps (identityKey p :: seen)

/-- The subsequence of places the deduplicator admits. -/
def dedupAdmitted : List OsmPlace → List String → List OsmPlace
  | [], _ => []
  | p :: ps, seen =>
    if identityKey p ∈ seen then dedupAdmitted ps seen
    else p :: dedupAdmitted ps (identityKey p :: seen)

/-- The seen-key set after a sequence of places has been processed. -/
def dedupSeen : List OsmPlace → List String → List String
  | [], seen => seen
  | p :: ps, seen =>
    if identityKey p ∈ seen then dedupSeen ps seen
    else dedupSeen ps (identityKey p :: seen)

/-! ## Adaptive throttle (src/unnamed/part_009, lines 106–113) -/

/-- Backoff on a rate-limited or empty-result call:
`delayMs = Math.min(5000, Math.round(delayMs * 1.7 + 100))`. -/
def growDelay (d : ℕ) : ℕ := min 5000 ((17 * d + 1005) / 10)

/-- Speed-up applied on the third consecutive success:
`delayMs = Math.max(75, Math.round(delayMs * 0.85))`. -/
def shrinkDelay (d : ℕ) : ℕ := max 75 ((85 * d + 50) / 100)

/-- Throttle state of one orchestration run. -/
structure ThrottleState where
  delayMs : ℕ
  successStreak : ℕ
deriving DecidableEq, Repr

/-- One feedback step of the adaptive throttle.  `failed` is
`resp.rateLimited || resp.places.length === 0`. -/
def throttleStep (s : ThrottleState) (failed : Bool) : ThrottleState :=
  if failed then
    { delayMs := growDelay s.delayMs, successStreak := 0 }
  else
    let k := s.successStreak + 1
    { delayMs := if 3 ≤ k then shrinkDelay s.delayMs else s.delayMs,
      successStreak := k }

/-- State after `n` consecutive all-failing (rate-limited or empty) calls. -/
def failRun (s : ThrottleState) : ℕ → ThrottleState
  | 0 => s
  | n + 1 => throttleStep (failRun s n) true

/-! ## Budgeted import orchestration (src/unnamed/part_009, POST handler) -/

/-- Result of one `searchOsmByBbox` call, as consumed by the orchestrator. -/
structure SearchResult where
  places : List OsmPlace
  rateLimited : Bool
deriving Repr

/-- Mutable state of one orchestration run.  `γ` is the type of one
tile × tag-filter combination; `visited` records, in order, the combinations a
provider call was issued for.  `attempts` counts database insert attempts and
indexes the insert-outcome oracle (the `try { prisma.lead.create } catch {}`
block can fail on a unique-constraint hit, in which case nothing is pushed to
`createdIds`). -/
structure OrchState (γ : Type) where
  created : ℕ
  calls : ℕ
  throttle : ThrottleState
  seen : List String
  attempts : ℕ
  visited : List γ

/-- The per-place admission loop run on one call's results
(`for (const p of resp.places) { ... }`): stop mid-batch once `target` is
reached, skip places whose identity key was already seen, otherwise record the
key and count the place as created when the database insert succeeds. -/
def admitBatch {γ : Type} (target : ℕ) (createOk : ℕ → Bool) :
    List OsmPlace → OrchState γ → OrchState γ
  | [], s => s
  | p :: ps, s =>
    if target ≤ s.created then s
    else if identityKey p ∈ s.seen then admitBatch target createOk ps s
    else
      admitBatch target createOk ps
        { s with
          seen := identityKey p :: s.seen
          attempts := s.attempts + 1
          created := if createOk s.attempts then s.created + 1 else s.created }

/-- The nested discovery loop (`outer: for (const filterGroup of filters)
for (const tile of tiles)`), flattened over the row-major list of
combinations; `break outer` is the early return of the whole remaining list.
Both budget guards are checked before every call, exactly as in the source.
`provider` is the oracle giving each combination's search result. -/
def orchLoop {γ : Type} (provider : γ → SearchResult) (createOk : ℕ → Bool)
    (maxCalls target : ℕ) : List γ → OrchState γ → OrchState γ
  | [], s => s
  | combo :: rest, s =>
    if maxCalls ≤ s.calls ∨ target ≤ s.created then s
    else
      let resp := provider combo
      let s1 : OrchState γ :=
        { s with
          calls := s.calls + 1
          visited := s.visited ++ [combo]
          throttle := throttleStep s.throttle
            (resp.rateLimited || resp.places.isEmpty) }
      orchLoop provider createOk maxCalls target rest
        (admitBatch target createOk resp.places s1)

/-- The fields of the JSON response that report the run's progress
(`created`, `callsMade`, `finalDelayMs`; the response additionally echoes the
request's `target`, `kind` and `city`). -/
structure OrchReport where
  created : ℕ
  callsMade : ℕ
  finalDelayMs : ℕ
deriving DecidableEq, Repr

/-- Initial state of a run: no places created, no calls made,
`delayMs = 150`, `successStreak = 0`, empty `seenRef`. -/
def orchInit (γ : Type) : OrchState γ :=
  { created := 0, calls := 0, throttle := ⟨150, 0⟩, seen := [], attempts := 0,
    visited := [] }

/-- The row-major iteration order: tag-filter groups outer, tiles inner. -/
def comboList {φ τ : Type} (filters : List φ) (tiles : List τ) : List (φ × τ) :=
  filters.flatMap fun fg => tiles.map fun t => (fg, t)

/-- One whole orchestration run: iterate over all combinations from the
initial state and report the progress counters, which are returned
unconditionally (budget exhaustion is a normal exit of the loop, not an
exception). -/
def importRun {φ τ : Type} (provider : φ × τ → SearchResult)
    (createOk : ℕ → Bool) (filters : List φ) (tiles : List τ)
    (maxCalls target : ℕ) : OrchReport × OrchState (φ × τ) :=
  let s := orchLoop provider createOk maxCalls target
    (comboList filters tiles) (orchInit (φ × τ))
  (⟨s.created, s.calls, s.throttle.delayMs⟩, s)

/-! ## Geographic tiling (src/unnamed/part_009, `tileBbox`) -/

/-- A bounding region; geographic coordinates are modelled in exact rational
arithmetic. -/
structure Bbox where
  south : ℚ
  west : ℚ
  north : ℚ
  east : ℚ
deriving DecidableEq, Repr

/-- The tile of grid cell `(r, c)`; `latStep`/`lonStep` are the constants the
source computes once before its loops. -/
def mkTile (b : Bbox) (rows cols r c : ℕ) : Bbox :=
  let latStep := (b.north - b.south) / rows
  let lonStep := (b.east - b.west) / cols
  { south := b.south + r * latStep
    west := b.west + c * lonStep
    north := b.south + (r + 1) * latStep
    east := b.west + (c + 1) * lonStep }

/-- `tileBbox(b, rows, cols)`: nested loops, `r` outer and `c` inner, pushing
one tile per grid cell — i.e. tiles in row-major order. -/
def tileBbox (b : Bbox) (rows cols : ℕ) : List Bbox :=
  (List.range rows).flatMap fun r => (List.range cols).map fun c =>
    mkTile b rows cols r c

/-- Area of a region (positive for well-formed regions). -/
def bboxArea (t : Bbox) : ℚ := (t.north - t.south) * (t.east - t.west)

/-- Two regions overlap when their interiors intersect. -/
def bboxOverlap (t₁ t₂ : Bbox) : Prop :=
  max t₁.south t₂.south < min t₁.north t₂.north ∧
    max t₁.west t₂.west < min t₁.east t₂.east

/-! ## Email guessing (src/unnamed/part_001, `src/lib/email/guess.ts`) -/

/-- Characters the final local-part sanitization keeps:
the class `[a-z0-9._+-]`. -/
def allowedLocalChar (c : Char) : Bool :=
  ('a' ≤ c && c ≤ 'z') || ('0' ≤ c && c ≤ '9') ||
    c = '.' || c = '_' || c = '+' || c = '-'

/-- Lower-case alphanumeric characters, the class `[a-z0-9]` used by `slug`. -/
def lowerAlnum (c : Char) : Bool :=
  ('a' ≤ c && c ≤ 'z') || ('0' ≤ c && c ≤ '9')

/-- JavaScript `trim`: drop whitespace from both ends. -/
def trimChars (l : List Char) : List Char :=
  ((l.dropWhile Char.isWhitespace).reverse.dropWhile Char.isWhitespace).reverse

/-- Does `pat` occur at the start of `hay`? (char-list version of
`String.prototype.startsWith`). -/
def startsWithRun : List Char → List Char → Bool
  | _, [] => true
  | [], _ :: _ => false
  | c :: cs, p :: ps => c = p && startsWithRun cs ps

/-- Does `pat` occur anywhere in `hay`? (char-list version of
`String.prototype.includes`). -/
def containsRun : List Char → List Char → Bool
  | [], pat => pat.isEmpty
  | c :: cs, pat => startsWithRun (c :: cs) pat || containsRun cs pat

/-- Split at every character satisfying `p`, keeping empty pieces — the
behaviour of JavaScript `String.prototype.split` with a single-character (or
single-character-class) separator: `splitWhenChar (· = '/') "a//b"` is
`["a", "", "b"]` and splitting the empty string yields `[""]`. -/
def splitWhenChar (p : Char → Bool) : List Char → List (List Char)
  | [] => [[]]
  | c :: cs =>
    let rest := splitWhenChar p cs
    if p c then [] :: rest
    else
      match rest with
      | [] => [[c]]
      | r :: rs => (c :: r) :: rs

/-- Join pieces with a separator, `Array.prototype.join`. -/
def joinWith (sep : List Char) : List (List Char) → List Char
  | [] => []
  | [x] => x
  | x :: y :: rest => x ++ sep ++ joinWith sep (y :: rest)

/-- Collapse every maximal run of the character `a` to a single occurrence.
`collapseRuns '.' l` is `replace(/\.\.+/g, ".")` (runs of length one are
already single, so collapsing all runs is the same function). -/
def collapseRuns (a : Char) : List Char → List Char
  | [] => []
  | [c] => [c]
  | c₁ :: c₂ :: rest =>
    if c₁ = a ∧ c₂ = a then collapseRuns a (c₂ :: rest)
    else c₁ :: collapseRuns a (c₂ :: rest)

/-- Strip a leading run and a trailing run of dots:
`replace(/^\.+|\.+$/g, "")`. -/
def stripEdgeDots (l : List Char) : List Char :=
  ((l.dropWhile (· = '.')).reverse.dropWhile (· = '.')).reverse

/-- The local-part sanitization applied to every generated candidate:
`local.toLowerCase().replace(/[^a-z0-9._+-]/g, "").replace(/^\.+|\.+$/g, "").replace(/\.\.+/g, ".")`.
`String.prototype.toLowerCase` is modelled by `Char.toLower`, which agrees
with it on the Basic Latin range; any character on which the two could differ
is outside `[a-z0-9._+-]` both before and after lowering, so the filtered
result is unaffected. -/
def sanitizeLocal (l : List Char) : List Char :=
  collapseRuns '.' (stripEdgeDots ((l.map Char.toLower).filter allowedLocalChar))

/-- Combining diacritical marks U+0300–U+036F, stripped by `slug` after NFKD
normalization. -/
def isCombiningMark (c : Char) : Bool :=
  0x300 ≤ c.toNat && c.toNat ≤ 0x36F

/-- The `slug` helper: trim, lower-case, NFKD-normalize, strip combining
marks, spell `ß` as `ss`, collapse non-alphanumeric runs to single spaces,
trim again, and turn the (single-space) whitespace runs into hyphens.
Unicode NFKD normalization is modelled as the identity map: it is the
identity on the Basic Latin range, and every claim settled in this file is
insensitive to how a non-ASCII letter is transliterated (the final local-part
sanitization of `guessEmails` removes anything outside `[a-z0-9._+-]`
either way).  The source spells the `ß` literal in mojibake (`ÃŸ`), the
UTF-8 bytes of `ß` decoded as Latin-1. -/
def slug (s : String) : String :=
  let cs := (trimChars s.data).map Char.toLower
  let cs := cs.filter fun c => !isCombiningMark c
  let cs := cs.flatMap fun c => if c = 'ß' then ['s', 's'] else [c]
  let cs := collapseRuns ' ' (cs.map fun c => if lowerAlnum c then c else ' ')
  let cs := trimChars cs
  let cs := cs.map fun c => if c = ' ' then '-' else c
  String.mk cs

/-- `toLocalAtom`: slug, then remove the hyphen separators. -/
def toLocalAtom (s : String) : String :=
  String.mk ((slug s).data.filter (· ≠ '-'))

/-- The `punycode.toASCII` library call of `normalizeDomain`, modelled as the
identity: it is the identity on all-ASCII hostnames, and no claim settled
here depends on the transcoding of an internationalized domain name. -/
def punycodeToAscii (s : String) : String := s

/-- `normalizeDomain`: trim and lower-case, strip an `http://` or `https://`
scheme, keep the part before the first `/`, strip a leading `www.`, reject
hosts without a dot, and apply IDN ASCII transcoding. -/
def normalizeDomain (domain : String) : Option String :=
  let d := (trimChars domain.data).map Char.toLower
  if d = [] then none
  else
    let withoutProto :=
      if startsWithRun d "https://".data then d.drop 8
      else if startsWithRun d "http://".data then d.drop 7
      else d
    let host := (splitWhenChar (· = '/') withoutProto).headD []
    let clean := if startsWithRun host "www.".data then host.drop 4 else host
    if !(clean.contains '.') then none
    else some (punycodeToAscii (String.mk clean))

/-- Input record of `guessEmails`. -/
structure GuessEmailInput where
  firstName : Option String := none
  lastName : Option String := none
  fullName : Option String := none
  domain : Option String := none
  companyName : Option String := none
deriving DecidableEq, Repr

/-- JavaScript `s?.trim()` on an optional string. -/
def trimOpt : Option String → Option String
  | some s => some (String.mk (trimChars s.data))
  | none => none

/-- `nameParts`: prefer explicit first/last names (empty-after-trim counts as
absent, by truthiness); otherwise split the trimmed full name on whitespace,
the first token becoming the first name and the remaining tokens, joined by
single spaces, the last name. -/
def nameParts (input : GuessEmailInput) : Option String × Option String :=
  let first := nonemptyOpt (trimOpt input.firstName)
  let last := nonemptyOpt (trimOpt input.lastName)
  if first.isSome || last.isSome then (first, last)
  else
    match nonemptyOpt (trimOpt input.fullName) with
    | none => (none, none)
    | some full =>
      match (splitWhenChar Char.isWhitespace full.data).filter (· ≠ []) with
      | [] => (none, none)
      | [p] => (some (String.mk p), none)
      | p :: rest =>
        (some (String.mk p), some (String.mk (joinWith [' '] rest)))

/-- A generated email candidate. -/
structure EmailCandidate where
  email : String
  localPart : String
  domain : String
  pattern : String
  score : ℤ
deriving DecidableEq, Repr

/-- The fixed, ordered pattern table of `guessEmails`: for each naming
convention, its label, the raw local-part it makes (or `none` when a required
name part is missing — the `make()` closures returning `null`), and its
hard-coded prior score. -/
def patternTable (f l fi li companyToken : String) :
    List (String × Option String × ℤ) :=
  [ ("first.last", if f ≠ "" ∧ l ≠ "" then some (f ++ "." ++ l) else none, 100),
    ("firstlast", if f ≠ "" ∧ l ≠ "" then some (f ++ l) else none, 96),
    ("f.last", if fi ≠ "" ∧ l ≠ "" then some (fi ++ "." ++ l) else none, 94),
    ("first.l", if f ≠ "" ∧ li ≠ "" then some (f ++ "." ++ li) else none, 90),
    ("first", if f ≠ "" then some f else none, 70),
    ("last", if l ≠ "" then some l else none, 65),
    ("flast", if fi ≠ "" ∧ l ≠ "" then some (fi ++ l) else none, 88),
    ("firstl", if f ≠ "" ∧ li ≠ "" then some (f ++ li) else none, 84),
    ("f.l", if fi ≠ "" ∧ li ≠ "" then some (fi ++ "." ++ li) else none, 78),
    ("info", some "info", 30),
    ("kontakt", some "kontakt", 28),
    ("hello", some "hello", 24),
    ("office", some "office", 22),
    ("company", if companyToken ≠ "" then some companyToken else none, 18) ]

/-- The candidate-generation loop of `guessEmails`: walk the pattern table in
order, skip conventions whose parts are missing, sanitize the local-part and
skip it when it sanitizes to nothing, deduplicate by the full address, and
stop as soon as `limit` candidates have been collected (`count` is the number
collected so far). -/
def genLoop (domain : String) (limit : ℕ) :
    List (String × Option String × ℤ) → List String → ℕ → List EmailCandidate
  | [], _, _ => []
  | (pat, mk, sc) :: rest, seen, count =>
    match mk with
    | none => genLoop domain limit rest seen count
    | some localRaw =>
      let nl := String.mk (sanitizeLocal localRaw.data)
      if nl = "" then genLoop domain limit rest seen count
      else
        let email := nl ++ "@" ++ domain
        if email ∈ seen then genLoop domain limit rest seen count
        else
          ⟨email, nl, domain, pat, sc⟩ ::
            (if limit ≤ count + 1 then []
             else genLoop domain limit rest (email :: seen) (count + 1))

/-- Stable insertion of a candidate into a descending-by-score list: the new
element goes before the first strictly smaller score, after equal ones. -/
def insertByScore (c : EmailCandidate) : List EmailCandidate → List EmailCandidate
  | [] => [c]
  | d :: ds => if d.score < c.score then c :: d :: ds else d :: insertByScore c ds

/-- Stable sort by descending `score`, modelling the JavaScript
`candidates.sort((a, b) => b.score - a.score)` (ECMAScript `Array.prototype.sort`
is required to be stable). -/
def sortByScoreDesc : List EmailCandidate → List EmailCandidate
  | [] => []
  | c :: cs => insertByScore c (sortByScoreDesc cs)

/-- `guessEmails(input, limit)`: normalize the domain (falsy or
unnormalizable domain means no candidates), derive the name atoms and their
initials, generate candidates along the pattern table and sort them by
descending prior score. -/
def guessEmails (input : GuessEmailInput) (limit : ℕ) : List EmailCandidate :=
  let dom := match input.domain with
             | none => none
             | some d => if d = "" then none else normalizeDomain d
  match dom with
  | none => []
  | some domain =>
    if domain = "" then []
    else
      let fl := nameParts input
      let f := match fl.1 with
               | some s => if s = "" then "" else toLocalAtom s
               | none => ""
      let l := match fl.2 with
               | some s => if s = "" then "" else toLocalAtom s
               | none => ""
      let fi := String.mk (f.data.take 1)
      let li := String.mk (l.data.take 1)
      let companyToken := match input.companyName with
                          | some s => if s = "" then "" else toLocalAtom s
                          | none => ""
      sortByScoreDesc
        (genLoop domain limit (patternTable f l fi li companyToken) [] 0)

/-! ## Email scoring (src/unnamed/part_008 and
`src/app/api/v1/email/guess/route.ts`) -/

/-- The final score of a ranked candidate:
`finalScore = priorScore + (mxPresent ? +5 : -20) + (disposable ? -50 : 0)`. -/
def finalScore (priorScore : ℤ) (mxPresent disposable : Bool) : ℤ :=
  priorScore + (if mxPresent then 5 else -20) + (if disposable then -50 else 0)

/-! ## Overpass adapter (src/lib/sources/osm.ts) -/

/-- The JavaScript nullish-coalescing operator `a ?? b` on optional strings
(`""` is kept: only `null`/`undefined` fall through). -/
def orNullish (a b : Option String) : Option String :=
  match a with
  | some x => some x
  | none => b

/-- A raw Overpass element as consumed by `toPlaces`: the `type` and `id`
fields used to build `sourceRef`, the `tags` object (an association list;
element tag keys are unique), and the element's rendered coordinate display
(the `lat.toFixed(5) ++ ", " ++ lon.toFixed(5)` string when both coordinates
are present — its decimal formatting is floating-point rendering no claim
depends on, so it is carried as given data). -/
structure OsmElement where
  typ : Option String := none
  id : Option Int := none
  tags : List (String × String) := []
  locationDisplay : Option String := none
deriving DecidableEq, Repr

/-- Tag lookup, `tags["key"]`. -/
def lookupTag (tags : List (String × String)) (k : String) : Option String :=
  (tags.find? fun kv => kv.1 = k).map (·.2)

/-- `toPlaces`: normalize raw elements into places, dropping elements without
a (truthy) `name` tag. -/
def toPlaces (elements : List OsmElement) (cityFallback : String) :
    List OsmPlace :=
  elements.filterMap fun el =>
    match nonemptyOpt (lookupTag el.tags "name") with
    | none => none
    | some name =>
      let website := orNullish (lookupTag el.tags "website")
        (lookupTag el.tags "contact:website")
      let email := orNullish (lookupTag el.tags "email")
        (lookupTag el.tags "contact:email")
      let phone := orNullish (lookupTag el.tags "phone")
        (lookupTag el.tags "contact:phone")
      let street := nonemptyOpt (lookupTag el.tags "addr:street")
      let housenumber := nonemptyOpt (lookupTag el.tags "addr:housenumber")
      let postcode := nonemptyOpt (lookupTag el.tags "addr:postcode")
      let addrCity := (lookupTag el.tags "addr:city").getD cityFallback
      let part₁ : Option String :=
        match street, housenumber with
        | some s, some h => some (s ++ " " ++ h)
        | some s, none => some s
        | none, _ => none
      let part₂ : Option String :=
        match postcode, nonemptyOpt (some addrCity) with
        | some p, some c => some (p ++ " " ++ c)
        | _, some c => some c
        | _, none => none
      let address : Option String :=
        if street.isSome || postcode.isSome then
          some (String.intercalate ", " ([part₁, part₂].filterMap id))
        else none
      let sourceRef : Option String :=
        match nonemptyOpt el.typ, el.id with
        | some t, some i => some (t ++ "/" ++ toString i)
        | _, _ => none
      some { sourceRef := sourceRef, name := name, website := website,
             phone := phone, email := email, address := address,
             location := el.locationDisplay, tags := el.tags }

/-- What `overpassRequest` returns to its caller. -/
structure OverpassResponse where
  ok : Bool
  status : ℕ
  elements : List OsmElement
  error : Option String
deriving DecidableEq, Repr

/-- Outcome of the underlying `fetch` to the Overpass endpoint, the external
oracle of `overpassRequest`.  `got status bodyText elements` is a completed
HTTP exchange: `bodyText` is what `res.text()` would yield (read only on a
non-2xx status) and `elements` the parsed `json.elements` array (empty when
the payload carries no array `elements` field).  `failed` covers everything
that lands in the `catch` block: timeout/abort, transport failure, and a 2xx
body that fails to parse as JSON. -/
inductive FetchOutcome where
  | got (status : ℕ) (bodyText : String) (elements : List OsmElement)
  | failed
deriving DecidableEq, Repr

/-- The WHATWG-fetch `Response.ok` flag: status in the range 200–299. -/
def fetchOk (status : ℕ) : Bool := 200 ≤ status && status ≤ 299

/-- `overpassRequest`: never throws.  On a non-2xx status it reports the
first 200 characters of the body as `error`; on any caught exception it
reports status 0 and the error string `"network_error"`. -/
def overpassRequest : FetchOutcome → OverpassResponse
  | .failed => ⟨false, 0, [], some "network_error"⟩
  | .got status body elements =>
    if fetchOk status then ⟨true, status, elements, none⟩
    else ⟨false, status, [], some (String.mk (body.data.take 200))⟩

/-- `e.toLowerCase().includes("rate")`, the textual rate-limit probe.  As for
`sanitizeLocal`, `toLowerCase` is modelled by `Char.toLower`; the probe
pattern `"rate"` is pure ASCII. -/
def containsRate (e : String) : Bool :=
  containsRun (e.data.map Char.toLower) ['r', 'a', 't', 'e']

/-- What `searchOsmByBbox` resolves with, given the fetch outcome: the
rate-limit flag is `resp.status === 429 || (resp.error?.toLowerCase().includes("rate") ?? false)`,
and any non-ok response degrades to an empty place list (the function never
throws — every fetch outcome, including timeout and transport failure, maps
to a resolved result). -/
def searchOsmByBbox (fetchResult : FetchOutcome) (cityFallback : String) :
    SearchResult :=
  let resp := overpassRequest fetchResult
  let rateLimited := resp.status == 429 ||
    (match resp.error with
     | some e => containsRate e
     | none => false)
  if resp.ok then ⟨toPlaces resp.elements cityFallback, rateLimited⟩
  else ⟨[], rateLimited⟩


/-- No two adjacent dots anywhere in the character list. -/
def noDoubleDot : List Char → Bool
  | [] => true
  | [_] => true
  | c₁ :: c₂ :: rest => !(c₁ = '.' && c₂ = '.') && noDoubleDot (c₂ :: rest)

/-! ## Concrete test data used by witnesses and counterexamples -/

/-- A place carrying a provider-issued reference. -/
def placeRefA : OsmPlace :=
  { sourceRef := some "node/1", name := "Alpha Clinic" }

/-- A second place with an unrelated reference. -/
def placeRefB : OsmPlace :=
  { sourceRef := some "way/2", name := "Beta Praxis" }

/-- A place repeating `placeRefA`'s reference under a different display name:
the same real-world entity returned by a later tile. -/
def placeRefA' : OsmPlace :=
  { sourceRef := some "node/1", name := "Alpha Clinic (Mitte)" }

/-- A place without a provider reference whose name starts upper-case. -/
def placeNoRefUpper : OsmPlace :=
  { sourceRef := none, name := "Foo Praxis", website := some "https://foo.de",
    address := some "Hauptstr. 1, 10115 Berlin" }

/-- The same record with the name lower-cased: under the specified
(lower-cased) composite key it would collide with `placeNoRefUpper`. -/
def placeNoRefLower : OsmPlace :=
  { sourceRef := none, name := "foo praxis", website := some "https://foo.de",
    address := some "Hauptstr. 1, 10115 Berlin" }

/-- A record agreeing with `placeNoRefUpper` on name, website and address but
differing in a field outside the composite key. -/
def placeNoRefUpperPhone : OsmPlace :=
  { sourceRef := none, name := "Foo Praxis", website := some "https://foo.de",
    address := some "Hauptstr. 1, 10115 Berlin", phone := some "+49 30 1" }

/-- The unit square as a concrete region. -/
def bboxUnit : Bbox := { south := 0, west := 0, north := 1, east := 1 }

/-- Concrete guesser input with both name parts and an ASCII domain. -/
def guessInputMM : GuessEmailInput :=
  { firstName := some "max", lastName := some "miller",
    domain := some "example.com" }

/-- A 201-character error body whose only occurrence of `"rate"` straddles
the 200-character truncation point: 197 filler characters followed by
`rate`. -/
def longRateBody : String :=
  String.mk (List.replicate 197 'x' ++ ['r', 'a', 't', 'e'])

/-! ### Throttle lemmas -/

theorem growDelay_le_cap (d : ℕ) : growDelay d ≤ 5000 :=
  min_le_left _ _

theorem le_growDelay (d : ℕ) (h : d ≤ 5000) : d ≤ growDelay d := by
  have h10 : d ≤ (17 * d + 1005) / 10 := by
    rw [Nat.le_div_iff_mul_le (by norm_num : 0 < 10)]
    omega
  exact le_min h h10

theorem growDelay_ge_100 (d : ℕ) : 100 ≤ growDelay d := by
  have : 100 ≤ (17 * d + 1005) / 10 := by
    rw [Nat.le_div_iff_mul_le (by norm_num : 0 < 10)]
    omega
  exact le_min (by norm_num) this

theorem shrinkDelay_lt (d : ℕ) (h : 100 ≤ d) : shrinkDelay d < d := by
  have h1 : (85 * d + 50) / 100 < d := by
    rw [Nat.div_lt_iff_lt_mul (by norm_num : 0 < 100)]
    omega
  have h2 : 75 < d := by omega
  exact max_lt h2 h1

theorem failRun_le_cap (d k : ℕ) (h : d ≤ 5000) (n : ℕ) :
    (failRun ⟨d, k⟩ n).delayMs ≤ 5000 := by
  induction n with
  | zero => exact h
  | succ m _ => exact growDelay_le_cap _

/-! ### Deduplicator lemmas -/

theorem dedupFlags_length (l : List OsmPlace) (seen : List String) :
    (dedupFlags l seen).length = l.length := by
  induction l generalizing seen with
  | nil => rfl
  | cons p ps ih =>
    by_cases h : identityKey p ∈ seen <;>
      simp [dedupFlags, h, ih]

theorem dedupFlags_append (l₁ l₂ : List OsmPlace) (seen : List String) :
    dedupFlags (l₁ ++ l₂) seen =
      dedupFlags l₁ seen ++ dedupFlags l₂ (dedupSeen l₁ seen) := by
  induction l₁ generalizing seen with
  | nil => rfl
  | cons p ps ih =>
    by_cases h : identityKey p ∈ seen <;>
      simp [dedupFlags, dedupSeen, h, ih]

theorem mem_dedupSeen (l : List OsmPlace) (seen : List String) (k : String) :
    k ∈ dedupSeen l seen ↔ k ∈ seen ∨ ∃ p ∈ l, identityKey p = k := by
  induction l generalizing seen with
  | nil => simp [dedupSeen]
  | cons p ps ih =>
    by_cases h : identityKey p ∈ seen
    · simp only [dedupSeen, if_pos h, ih, List.mem_cons]
      constructor
      · rintro (hk | ⟨q, hq, hk⟩)
        · exact Or.inl hk
        · exact Or.inr ⟨q, Or.inr hq, hk⟩
      · rintro (hk | ⟨q, rfl | hq, hk⟩)
        · exact Or.inl hk
        · exact Or.inl (hk ▸ h)
        · exact Or.inr ⟨q, hq, hk⟩
    · simp only [dedupSeen, if_neg h, ih, List.mem_cons]
      constructor
      · rintro ((rfl | hk) | ⟨q, hq, hk⟩)
        · exact Or.inr ⟨p, Or.inl rfl, rfl⟩
        · exact Or.inl hk
        · exact Or.inr ⟨q, Or.inr hq, hk⟩
      · rintro (hk | ⟨q, rfl | hq, hk⟩)
        · exact Or.inl (Or.inr hk)
        · exact Or.inl (Or.inl hk.symm)
        · exact Or.inr ⟨q, hq, hk⟩

theorem mem_of_mem_dedupAdmitted (l : List OsmPlace) (seen : List String)
    (p : OsmPlace) (hp : p ∈ dedupAdmitted l seen) : p ∈ l := by
  induction l generalizing seen with
  | nil => simp [dedupAdmitted] at hp
  | cons q qs ih =>
    by_cases h : identityKey q ∈ seen
    · simp only [dedupAdmitted, if_pos h] at hp
      exact List.mem_cons_of_mem _ (ih _ hp)
    · simp only [dedupAdmitted, if_neg h, List.mem_cons] at hp
      rcases hp with rfl | hp
      · exact List.mem_cons_self _ _
      · exact List.mem_cons_of_mem _ (ih _ hp)

theorem dedupAdmitted_eq_nil_of_seen (l : List OsmPlace) (seen : List String)
    (h : ∀ p ∈ l, identityKey p ∈ seen) : dedupAdmitted l seen = [] := by
  induction l generalizing seen with
  | nil => rfl
  | cons p ps ih =>
    have hp : identityKey p ∈ seen := h p (List.mem_cons_self _ _)
    simp only [dedupAdmitted, if_pos hp]
    exact ih seen fun q hq => h q (List.mem_cons_of_mem _ hq)

theorem dedupSeen_sub (l : List OsmPlace) (seen : List String) (k : String)
    (hk : k ∈ seen) : k ∈ dedupSeen l seen :=
  (mem_dedupSeen l seen k).mpr (Or.inl hk)

/-! ### Orchestrator lemmas -/

theorem admitBatch_calls {γ : Type} (target : ℕ) (createOk : ℕ → Bool)
    (l : List OsmPlace) (s : OrchState γ) :
    (admitBatch target createOk l s).calls = s.calls := by
  induction l generalizing s with
  | nil => rfl
  | cons p ps ih =>
    by_cases h1 : target ≤ s.created
    · simp [admitBatch, h1]
    · by_cases h2 : identityKey p ∈ s.seen <;>
        simp [admitBatch, h1, h2, ih]

theorem admitBatch_visited {γ : Type} (target : ℕ) (createOk : ℕ → Bool)
    (l : List OsmPlace) (s : OrchState γ) :
    (admitBatch target createOk l s).visited = s.visited := by
  induction l generalizing s with
  | nil => rfl
  | cons p ps ih =>
    by_cases h1 : target ≤ s.created
    · simp [admitBatch, h1]
    · by_cases h2 : identityKey p ∈ s.seen <;>
        simp [admitBatch, h1, h2, ih]

theorem admitBatch_created_le {γ : Type} (target : ℕ) (createOk : ℕ → Bool)
    (l : List OsmPlace) (s : OrchState γ) (h : s.created ≤ target) :
    (admitBatch target createOk l s).created ≤ target := by
  induction l generalizing s with
  | nil => exact h
  | cons p ps ih =>
    by_cases h1 : target ≤ s.created
    · simpa [admitBatch, h1] using h
    · by_cases h2 : identityKey p ∈ s.seen
      · simp only [admitBatch, if_neg h1, if_pos h2]
        exact ih s h
      · simp only [admitBatch, if_neg h1, if_neg h2]
        refine ih _ ?_
        by_cases h3 : createOk s.attempts <;> simp [h3] <;> omega

theorem orchLoop_calls_le {γ : Type} (provider : γ → SearchResult)
    (createOk : ℕ → Bool) (maxCalls target : ℕ) (combos : List γ)
    (s : OrchState γ) (h : s.calls ≤ maxCalls) :
    (orchLoop provider createOk maxCalls target combos s).calls ≤ maxCalls := by
  induction combos generalizing s with
  | nil => exact h
  | cons combo rest ih =>
    by_cases hb : maxCalls ≤ s.calls ∨ target ≤ s.created
    · simpa [orchLoop, hb] using h
    · simp only [orchLoop, if_neg hb]
      refine ih _ ?_
      rw [admitBatch_calls]
      dsimp only
      push_neg at hb
      omega

theorem orchLoop_created_le {γ : Type} (provider : γ → SearchResult)
    (createOk : ℕ → Bool) (maxCalls target : ℕ) (combos : List γ)
    (s : OrchState γ) (h : s.created ≤ target) :
    (orchLoop provider createOk maxCalls target combos s).created ≤ target := by
  induction combos generalizing s with
  | nil => exact h
  | cons combo rest ih =>
    by_cases hb : maxCalls ≤ s.calls ∨ target ≤ s.created
    · simpa [orchLoop, hb] using h
    · simp only [orchLoop, if_neg hb]
      exact ih _ (admitBatch_created_le _ _ _ _ h)

theorem orchLoop_visited {γ : Type} (provider : γ → SearchResult)
    (createOk : ℕ → Bool) (maxCalls target : ℕ) (combos : List γ)
    (s : OrchState γ) :
    ∃ n, (orchLoop provider createOk maxCalls target combos s).visited =
        s.visited ++ combos.take n ∧
      (orchLoop provider createOk maxCalls target combos s).calls =
        s.calls + n := by
  induction combos generalizing s with
  | nil => exact ⟨0, by simp [orchLoop]⟩
  | cons combo rest ih =>
    by_cases hb : maxCalls ≤ s.calls ∨ target ≤ s.created
    · exact ⟨0, by simp [orchLoop, hb]⟩
    · simp only [orchLoop, if_neg hb]
      obtain ⟨n, hv, hc⟩ := ih (admitBatch target createOk (provider combo).places
        { s with
          calls := s.calls + 1
          visited := s.visited ++ [combo]
          throttle := throttleStep s.throttle
            ((provider combo).rateLimited || (provider combo).places.isEmpty) })
      refine ⟨n + 1, ?_, ?_⟩
      · rw [hv, admitBatch_visited]
        simp [List.take_succ_cons]
      · rw [hc, admitBatch_calls]
        dsimp only
        omega

/-! ### Tiling lemmas -/

theorem flatMap_range_map {β : Type} (R C : ℕ) (hc : 0 < C) (f : ℕ → ℕ → β) :
    ((List.range R).flatMap fun r => (List.range C).map fun c => f r c) =
      (List.range (R * C)).map fun i => f (i / C) (i % C) := by
  induction R with
  | zero => simp
  | succ R ih =>
    rw [List.range_succ, List.flatMap_append, ih, Nat.succ_mul,
      List.range_add, List.map_append]
    congr 1
    · simp only [List.flatMap_cons, List.flatMap_nil, List.append_nil,
        List.map_map]
      refine List.map_congr_left fun k hk => ?_
      have hkC : k < C := List.mem_range.mp hk
      have hdiv : (R * C + k) / C = R + k / C := by
        rw [Nat.mul_comm R C, Nat.add_comm (C * R) k,
          Nat.add_mul_div_left _ _ hc, Nat.add_comm]
      have hmod : (R * C + k) % C = k := by
        rw [Nat.mul_comm R C, Nat.add_comm (C * R) k,
          Nat.add_mul_mod_self_left, Nat.mod_eq_of_lt hkC]
      simp [Function.comp, hdiv, hmod, Nat.div_eq_of_lt hkC]

theorem tileBbox_eq_map (b : Bbox) (rows cols : ℕ) (hc : 0 < cols) :
    tileBbox b rows cols =
      (List.range (rows * cols)).map fun i =>
        mkTile b rows cols (i / cols) (i % cols) :=
  flatMap_range_map rows cols hc _

theorem tileBbox_getElem (b : Bbox) (rows cols : ℕ) (hc : 0 < cols)
    (i : ℕ) (hi : i < rows * cols) :
    (tileBbox b rows cols)[i]? =
      some (mkTile b rows cols (i / cols) (i % cols)) := by
  rw [tileBbox_eq_map b rows cols hc, List.getElem?_map,
    List.getElem?_range hi, Option.map_some']

theorem mkTile_area (b : Bbox) (rows cols r c : ℕ) :
    bboxArea (mkTile b rows cols r c) =
      (b.north - b.south) / rows * ((b.east - b.west) / cols) := by
  simp only [bboxArea, mkTile]
  ring

theorem mkTile_row_disjoint (b : Bbox) (rows cols : ℕ) (hr : 0 < rows)
    (hsn : b.south < b.north) {r₁ c₁ r₂ c₂ : ℕ} (h : r₁ < r₂) :
    ¬ bboxOverlap (mkTile b rows cols r₁ c₁) (mkTile b rows cols r₂ c₂) := by
  intro hov
  have hls : 0 < (b.north - b.south) / rows :=
    div_pos (by linarith) (by exact_mod_cast hr)
  have hcast : (r₁ : ℚ) + 1 ≤ (r₂ : ℚ) := by exact_mod_cast h
  have hle : (mkTile b rows cols r₁ c₁).north ≤ (mkTile b rows cols r₂ c₂).south := by
    simp only [mkTile]
    have := mul_le_mul_of_nonneg_right hcast (le_of_lt hls)
    linarith
  have h1 := hov.1
  have h2 : min (mkTile b rows cols r₁ c₁).north (mkTile b rows cols r₂ c₂).north ≤
      (mkTile b rows cols r₁ c₁).north := min_le_left _ _
  have h3 : (mkTile b rows cols r₂ c₂).south ≤
      max (mkTile b rows cols r₁ c₁).south (mkTile b rows cols r₂ c₂).south :=
    le_max_right _ _
  linarith

theorem mkTile_col_disjoint (b : Bbox) (rows cols : ℕ) (hc : 0 < cols)
    (hwe : b.west < b.east) {r₁ c₁ r₂ c₂ : ℕ} (h : c₁ < c₂) :
    ¬ bboxOverlap (mkTile b rows cols r₁ c₁) (mkTile b rows cols r₂ c₂) := by
  intro hov
  have hlo : 0 < (b.east - b.west) / cols :=
    div_pos (by linarith) (by exact_mod_cast hc)
  have hcast : (c₁ : ℚ) + 1 ≤ (c₂ : ℚ) := by exact_mod_cast h
  have hle : (mkTile b rows cols r₁ c₁).east ≤ (mkTile b rows cols r₂ c₂).west := by
    simp only [mkTile]
    have := mul_le_mul_of_nonneg_right hcast (le_of_lt hlo)
    linarith
  have h1 := hov.2
  have h2 : min (mkTile b rows cols r₁ c₁).east (mkTile b rows cols r₂ c₂).east ≤
      (mkTile b rows cols r₁ c₁).east := min_le_left _ _
  have h3 : (mkTile b rows cols r₂ c₂).west ≤
      max (mkTile b rows cols r₁ c₁).west (mkTile b rows cols r₂ c₂).west :=
    le_max_right _ _
  linarith

theorem bboxOverlap_symm {t₁ t₂ : Bbox} (h : bboxOverlap t₁ t₂) :
    bboxOverlap t₂ t₁ := by
  obtain ⟨h1, h2⟩ := h
  constructor
  · rw [max_comm, min_comm]; exact h1
  · rw [max_comm, min_comm]; exact h2

theorem mkTile_disjoint (b : Bbox) (rows cols : ℕ) (hr : 0 < rows)
    (hc : 0 < cols) (hsn : b.south < b.north) (hwe : b.west < b.east)
    {r₁ c₁ r₂ c₂ : ℕ} (h : (r₁, c₁) ≠ (r₂, c₂)) :
    ¬ bboxOverlap (mkTile b rows cols r₁ c₁) (mkTile b rows cols r₂ c₂) := by
  rcases Nat.lt_trichotomy r₁ r₂ with hrlt | hreq | hrgt
  · exact mkTile_row_disjoint b rows cols hr hsn hrlt
  · subst hreq
    rcases Nat.lt_trichotomy c₁ c₂ with hclt | hceq | hcgt
    · exact mkTile_col_disjoint b rows cols hc hwe hclt
    · exact absurd (by rw [hceq]) h
    · exact fun hov =>
        mkTile_col_disjoint b rows cols hc hwe hcgt (bboxOverlap_symm hov)
  · exact fun hov =>
      mkTile_row_disjoint b rows cols hr hsn hrgt (bboxOverlap_symm hov)

/-! ### Local-part sanitization lemmas -/


theorem collapseRuns_head? (a : Char) (l : List Char) :
    (collapseRuns a l).head? = l.head? := by
  induction l with
  | nil => rfl
  | cons c₁ rest ih =>
    cases rest with
    | nil => rfl
    | cons c₂ rest' =>
      by_cases h : c₁ = a ∧ c₂ = a
      · rw [collapseRuns, if_pos h, ih]
        simp [h.1, h.2]
      · rw [collapseRuns, if_neg h]
        rfl

theorem getLast?_cons_cons {α : Type} (a b : α) (l : List α) :
    (a :: b :: l).getLast? = (b :: l).getLast? := by
  simp [List.getLast?]

theorem collapseRuns_getLast? (a : Char) (l : List Char) :
    (collapseRuns a l).getLast? = l.getLast? := by
  induction l with
  | nil => rfl
  | cons c₁ rest ih =>
    cases rest with
    | nil => rfl
    | cons c₂ rest' =>
      by_cases h : c₁ = a ∧ c₂ = a
      · rw [collapseRuns, if_pos h, ih, getLast?_cons_cons]
      · rw [collapseRuns, if_neg h]
        cases heq : collapseRuns a (c₂ :: rest') with
        | nil =>
          have : (collapseRuns a (c₂ :: rest')).head? = some c₂ := by
            rw [collapseRuns_head?]; rfl
          rw [heq] at this
          exact absurd this (by simp)
        | cons d ds =>
          rw [getLast?_cons_cons, getLast?_cons_cons, ← heq, ih]

theorem mem_collapseRuns (a : Char) (l : List Char) (c : Char)
    (hc : c ∈ collapseRuns a l) : c ∈ l := by
  induction l with
  | nil => simp [collapseRuns] at hc
  | cons c₁ rest ih =>
    cases rest with
    | nil => simp only [collapseRuns] at hc; exact hc
    | cons c₂ rest' =>
      by_cases h : c₁ = a ∧ c₂ = a
      · rw [collapseRuns, if_pos h] at hc
        exact List.mem_cons_of_mem _ (ih hc)
      · rw [collapseRuns, if_neg h] at hc
        rcases List.mem_cons.mp hc with rfl | hc'
        · exact List.mem_cons_self _ _
        · exact List.mem_cons_of_mem _ (ih hc')

theorem noDoubleDot_cons (c : Char) (l : List Char)
    (hl : noDoubleDot l = true)
    (hhead : ∀ d, l.head? = some d → ¬(c = '.' ∧ d = '.')) :
    noDoubleDot (c :: l) = true := by
  cases l with
  | nil => rfl
  | cons d ds =>
    have hd := hhead d rfl
    simp only [noDoubleDot, Bool.and_eq_true, Bool.not_eq_true']
    refine ⟨?_, hl⟩
    by_cases hc : c = '.' <;> by_cases hdd : d = '.' <;>
      simp [hc, hdd] at hd ⊢

theorem noDoubleDot_collapseRuns (l : List Char) :
    noDoubleDot (collapseRuns '.' l) = true := by
  induction l with
  | nil => rfl
  | cons c₁ rest ih =>
    cases rest with
    | nil => rfl
    | cons c₂ rest' =>
      by_cases h : c₁ = '.' ∧ c₂ = '.'
      · rw [collapseRuns, if_pos h]
        exact ih
      · rw [collapseRuns, if_neg h]
        refine noDoubleDot_cons _ _ ih fun d hd => ?_
        rw [collapseRuns_head?] at hd
        simp only [List.head?_cons, Option.some_inj] at hd
        subst hd
        exact h

theorem dropWhile_head?_not {α : Type} (p : α → Bool) (l : List α) (a : α)
    (h : (l.dropWhile p).head? = some a) : p a = false := by
  induction l with
  | nil => simp [List.dropWhile] at h
  | cons c cs ih =>
    by_cases hc : p c
    · rw [List.dropWhile_cons_of_pos hc] at h
      exact ih h
    · rw [List.dropWhile_cons_of_neg hc] at h
      simp only [List.head?_cons, Option.some_inj] at h
      subst h
      exact Bool.of_not_eq_true hc

theorem dropWhile_getLast?_of_ne_nil {α : Type} (p : α → Bool) (l : List α)
    (h : l.dropWhile p ≠ []) : (l.dropWhile p).getLast? = l.getLast? := by
  obtain ⟨t, ht⟩ := List.dropWhile_suffix p (l := l)
  conv_rhs => rw [← ht]
  rw [List.getLast?_append]
  cases hg : (l.dropWhile p).getLast? with
  | none => exact absurd (List.getLast?_eq_none_iff.mp hg) h
  | some y => rfl

theorem stripEdgeDots_head? (l : List Char) (a : Char)
    (h : (stripEdgeDots l).head? = some a) : a ≠ '.' := by
  unfold stripEdgeDots at h
  rw [List.head?_reverse] at h
  have hne : (l.dropWhile (· = '.')).reverse.dropWhile (· = '.') ≠ [] := by
    intro hnil
    rw [hnil] at h
    simp at h
  rw [dropWhile_getLast?_of_ne_nil _ _ hne, List.getLast?_reverse] at h
  have := dropWhile_head?_not (· = '.') l a h
  simpa using this

theorem stripEdgeDots_getLast? (l : List Char) (a : Char)
    (h : (stripEdgeDots l).getLast? = some a) : a ≠ '.' := by
  unfold stripEdgeDots at h
  rw [List.getLast?_reverse] at h
  have := dropWhile_head?_not (· = '.') _ a h
  simpa using this

theorem mem_stripEdgeDots (l : List Char) (c : Char)
    (hc : c ∈ stripEdgeDots l) : c ∈ l := by
  unfold stripEdgeDots at hc
  rw [List.mem_reverse] at hc
  have h1 := ((List.dropWhile_sublist (· = '.')
    (l := (l.dropWhile (· = '.')).reverse)).mem hc)
  rw [List.mem_reverse] at h1
  exact (List.dropWhile_sublist (· = '.') (l := l)).mem h1

theorem sanitizeLocal_allowed (l : List Char) (c : Char)
    (hc : c ∈ sanitizeLocal l) : allowedLocalChar c = true := by
  unfold sanitizeLocal at hc
  have h1 := mem_stripEdgeDots _ _ (mem_collapseRuns _ _ _ hc)
  exact (List.mem_filter.mp h1).2

theorem sanitizeLocal_head? (l : List Char) :
    (sanitizeLocal l).head? ≠ some '.' := by
  intro h
  unfold sanitizeLocal at h
  rw [collapseRuns_head?] at h
  exact stripEdgeDots_head? _ _ h rfl

theorem sanitizeLocal_getLast? (l : List Char) :
    (sanitizeLocal l).getLast? ≠ some '.' := by
  intro h
  unfold sanitizeLocal at h
  rw [collapseRuns_getLast?] at h
  exact stripEdgeDots_getLast? _ _ h rfl

theorem sanitizeLocal_noDoubleDot (l : List Char) :
    noDoubleDot (sanitizeLocal l) = true :=
  noDoubleDot_collapseRuns _

/-! ### Candidate generation lemmas -/

theorem insertByScore_perm (c : EmailCandidate) (l : List EmailCandidate) :
    (insertByScore c l).Perm (c :: l) := by
  induction l with
  | nil => exact List.Perm.refl _
  | cons d ds ih =>
    by_cases h : d.score < c.score
    · rw [insertByScore, if_pos h]
    · rw [insertByScore, if_neg h]
      exact (ih.cons d).trans (List.Perm.swap c d ds)

theorem sortByScoreDesc_perm (l : List EmailCandidate) :
    (sortByScoreDesc l).Perm l := by
  induction l with
  | nil => exact List.Perm.refl _
  | cons c cs ih =>
    exact (insertByScore_perm c (sortByScoreDesc cs)).trans (ih.cons c)

theorem mem_sortByScoreDesc (c : EmailCandidate) (l : List EmailCandidate) :
    c ∈ sortByScoreDesc l ↔ c ∈ l :=
  (sortByScoreDesc_perm l).mem_iff

theorem mem_genLoop (domain : String) (limit : ℕ)
    (pats : List (String × Option String × ℤ)) (seen : List String)
    (count : ℕ) (c : EmailCandidate) (hc : c ∈ genLoop domain limit pats seen count) :
    ∃ raw : String, c.localPart = String.mk (sanitizeLocal raw.data) ∧
      c.localPart ≠ "" ∧ c.domain = domain := by
  induction pats generalizing seen count with
  | nil => simp [genLoop] at hc
  | cons entry rest ih =>
    obtain ⟨pat, mk, sc⟩ := entry
    simp only [genLoop] at hc
    cases mk with
    | none => exact ih _ _ hc
    | some localRaw =>
      simp only at hc
      by_cases h1 : String.mk (sanitizeLocal localRaw.data) = ""
      · rw [if_pos h1] at hc
        exact ih _ _ hc
      · rw [if_neg h1] at hc
        by_cases h2 : (String.mk (sanitizeLocal localRaw.data) ++ "@" ++ domain) ∈ seen
        · rw [if_pos h2] at hc
          exact ih _ _ hc
        · rw [if_neg h2] at hc
          rcases List.mem_cons.mp hc with rfl | hc'
          · exact ⟨localRaw, rfl, h1, rfl⟩
          · by_cases h3 : limit ≤ count + 1
            · rw [if_pos h3] at hc'
              simp at hc'
            · rw [if_neg h3] at hc'
              exact ih _ _ hc'

/-! ## Claims -/

/-- C3 (counterexample): the claim quantifies over every starting
`delayMs ≥ 0`, but from a start above the cap — here 5001 — the first
rate-limited call strictly *decreases* `delayMs` (the `min` clamps it down to
5000), and the starting value itself already exceeds the cap; so, as stated,
the run is neither monotonically non-decreasing nor within the cap at every
step. -/
theorem backoff_monotone_cex :
    (failRun ⟨5001, 0⟩ 1).delayMs < (failRun ⟨5001, 0⟩ 0).delayMs ∧
    5000 < (failRun ⟨5001, 0⟩ 0).delayMs := by
  decide

/-- C3 (amended): for every starting `delayMs` between 0 and the cap 5000 —
which covers the orchestrator's actual initial value 150 and every value the
update can ever produce — a run of consecutive rate-limited or empty-result
calls under `delayMs := min(5000, round(delayMs * 1.7 + 100))` makes
`delayMs` monotonically non-decreasing, and it never exceeds 5000 at any
step. -/
theorem backoff_monotone_capped (d₀ k₀ : ℕ) (h : d₀ ≤ 5000) (n : ℕ) :
    (failRun ⟨d₀, k₀⟩ n).delayMs ≤ (failRun ⟨d₀, k₀⟩ (n + 1)).delayMs ∧
    (failRun ⟨d₀, k₀⟩ n).delayMs ≤ 5000 := by
  have hcap := failRun_le_cap d₀ k₀ h n
  refine ⟨?_, hcap⟩
  show (failRun ⟨d₀, k₀⟩ n).delayMs ≤
    (throttleStep (failRun ⟨d₀, k₀⟩ n) true).delayMs
  exact le_growDelay _ hcap

/-- C3 (witness): the amended theorem applied at the run's actual starting
state `delayMs = 150`, `successStreak = 0`, first step. -/
theorem backoff_monotone_capped_witness :
    (failRun ⟨150, 0⟩ 0).delayMs ≤ (failRun ⟨150, 0⟩ 1).delayMs ∧
    (failRun ⟨150, 0⟩ 0).delayMs ≤ 5000 :=
  backoff_monotone_capped 150 0 (by norm_num) 0

/-- C4: from any state reached by a failed (rate-limited or empty-result)
call — `successStreak = 0` and `delayMs` a post-failure value, which is
always at least 100 — the first two successful non-empty calls leave
`delayMs` unchanged, the third strictly decreases it (the shrink
`delayMs := max(75, round(delayMs * 0.85))` fires exactly when
`successStreak` reaches 3), and `delayMs` never goes below the floor 75. -/
theorem success_streak_shrinks (d k : ℕ) :
    ((throttleStep (throttleStep ⟨d, k⟩ true) false).delayMs =
      (throttleStep ⟨d, k⟩ true).delayMs) ∧
    ((throttleStep (throttleStep (throttleStep ⟨d, k⟩ true) false) false).delayMs =
      (throttleStep ⟨d, k⟩ true).delayMs) ∧
    ((throttleStep (throttleStep (throttleStep (throttleStep ⟨d, k⟩ true) false)
        false) false).delayMs < (throttleStep ⟨d, k⟩ true).delayMs) ∧
    75 ≤ (throttleStep (throttleStep (throttleStep (throttleStep ⟨d, k⟩ true)
        false) false) false).delayMs := by
  refine ⟨rfl, rfl, ?_, ?_⟩
  · show shrinkDelay (growDelay d) < growDelay d
    exact shrinkDelay_lt _ (growDelay_ge_100 d)
  · show 75 ≤ shrinkDelay (growDelay d)
    exact le_max_left _ _

/-- C6 (counterexample): the composite fallback key is built from the
*verbatim* name — the source does not lower-case it (nor truncate the
address) — so two places that differ only in the letter-case of the name get
*different* identity keys, contradicting the claim that they map to the same
key. -/
theorem identityKey_case_cex :
    identityKey placeNoRefUpper ≠ identityKey placeNoRefLower := by
  decide

/-- C6 (amended): for every place whose `sourceRef` is absent, the
deduplication identity key is the composite
`"name:" ++ name ++ "|web:" ++ website ++ "|addr:" ++ address` built from the
verbatim (case-sensitive) name, the full (untruncated) address and the
website; two places that agree exactly on name, website and address map to
the same identity key and are treated as the same entity, whatever their
other fields. -/
theorem identityKey_fallback_composite (p q : OsmPlace)
    (hp : p.sourceRef = none) (hq : q.sourceRef = none) (hn : p.name = q.name)
    (hw : p.website = q.website) (ha : p.address = q.address) :
    identityKey p = fallbackKey p ∧ identityKey p = identityKey q := by
  constructor
  · simp [identityKey, hp]
  · simp [identityKey, hp, hq, fallbackKey, hn, hw, ha]

/-- C6 (witness): the amended theorem applied to two concrete records that
agree on name, website and address but differ in phone. -/
theorem identityKey_fallback_composite_witness :
    identityKey placeNoRefUpper = fallbackKey placeNoRefUpper ∧
    identityKey placeNoRefUpper = identityKey placeNoRefUpperPhone :=
  identityKey_fallback_composite placeNoRefUpper placeNoRefUpperPhone
    rfl rfl rfl rfl rfl

/-- C7: for any two candidates with the same disposable status, where A lacks
an MX record, B has one, and A's prior score exceeds B's by less than 25, B's
final score under
`finalScore = priorScore + (mxPresent ? +5 : -20) + (disposable ? -50 : 0)`
is strictly greater than A's, so B outranks A in the descending sort. -/
theorem mx_dominates_small_prior_gap (pa pb : ℤ) (disp : Bool)
    (h : pa - pb < 25) :
    finalScore pa false disp < finalScore pb true disp := by
  unfold finalScore
  cases disp <;> norm_num <;> omega

/-- C7 (witness): prior scores 100 (no MX) versus 80 (MX present), gap 20,
non-disposable: 100 - 20 = 80 < 85 = 80 + 5. -/
theorem mx_dominates_small_prior_gap_witness :
    finalScore 100 false false < finalScore 80 true false :=
  mx_dominates_small_prior_gap 100 80 false (by norm_num)

/-- C1: within one orchestration run, the deduplicator admits a place exactly
on the first occurrence of each distinct identity key — the decision at any
position of the input sequence is `true` iff no earlier place has an equal
key — and every later equal-key place is rejected; consequently feeding the
run's admitted sequence through the same deduplicator again yields zero new
admissions. -/
theorem dedup_admits_first_occurrence_only (l : List OsmPlace) :
    (∀ (pre : List OsmPlace) (p : OsmPlace) (suf : List OsmPlace),
        l = pre ++ p :: suf →
        ((dedupFlags l []).getD pre.length false = true ↔
          ∀ q ∈ pre, identityKey q ≠ identityKey p)) ∧
    dedupAdmitted (dedupAdmitted l []) (dedupSeen l []) = [] := by
  constructor
  · rintro pre p suf rfl
    rw [dedupFlags_append, List.getD_eq_getElem?_getD,
      List.getElem?_append_right (by rw [dedupFlags_length]),
      dedupFlags_length, Nat.sub_self]
    by_cases h : identityKey p ∈ dedupSeen pre []
    · simp only [dedupFlags, if_pos h, List.getElem?_cons_zero,
        Option.getD_some]
      constructor
      · intro hf
        exact absurd hf (by simp)
      · intro hall
        exfalso
        rw [mem_dedupSeen] at h
        rcases h with h' | ⟨q, hq, hk⟩
        · simp at h'
        · exact hall q hq hk
    · simp only [dedupFlags, if_neg h, List.getElem?_cons_zero,
        Option.getD_some]
      constructor
      · intro _ q hq hk
        exact h ((mem_dedupSeen pre [] _).mpr (Or.inr ⟨q, hq, hk⟩))
      · intro _
        trivial
  · refine dedupAdmitted_eq_nil_of_seen _ _ fun p hp => ?_
    exact (mem_dedupSeen l [] _).mpr
      (Or.inr ⟨p, mem_of_mem_dedupAdmitted _ _ _ hp, rfl⟩)

/-- C1 (witness): a concrete three-place sequence whose third place repeats
the first place's `sourceRef`: the flag at position 2 is `false` and the
equivalence holds (the repeated key is found at position 0); re-running the
deduplicator over the admitted sequence admits nothing. -/
theorem dedup_admits_first_occurrence_only_witness :
    ((dedupFlags [placeRefA, placeRefB, placeRefA'] []).getD 2 false = true ↔
      ∀ q ∈ [placeRefA, placeRefB], identityKey q ≠ identityKey placeRefA') ∧
    dedupAdmitted (dedupAdmitted [placeRefA, placeRefB, placeRefA'] [])
      (dedupSeen [placeRefA, placeRefB, placeRefA'] []) = [] := by
  have h := dedup_admits_first_occurrence_only [placeRefA, placeRefB, placeRefA']
  exact ⟨h.1 [placeRefA, placeRefB] placeRefA' [] rfl, h.2⟩

/-- C2: for every region with `south < north` and `west < east` and every
`rows, cols ≥ 1`, `tileBbox` — a pure function of its inputs — returns
exactly `rows × cols` tiles; in exact arithmetic their areas sum to the
region's area; the tile at position `r * cols + c` is the grid cell `(r, c)`
(row index outer, column index inner: row-major order); and two tiles at
distinct positions never overlap (their interiors are disjoint). -/
theorem tileBbox_partitions (b : Bbox) (rows cols : ℕ) (hr : 1 ≤ rows)
    (hc : 1 ≤ cols) (hsn : b.south < b.north) (hwe : b.west < b.east) :
    (tileBbox b rows cols).length = rows * cols ∧
    ((tileBbox b rows cols).map bboxArea).sum = bboxArea b ∧
    (∀ r c, r < rows → c < cols →
      (tileBbox b rows cols)[r * cols + c]? = some (mkTile b rows cols r c)) ∧
    (∀ (i j : ℕ) (ti tj : Bbox), i ≠ j → (tileBbox b rows cols)[i]? = some ti →
      (tileBbox b rows cols)[j]? = some tj → ¬ bboxOverlap ti tj) := by
  have hc0 : 0 < cols := hc
  have hr0 : 0 < rows := hr
  have hrQ : (rows : ℚ) ≠ 0 := Nat.cast_ne_zero.mpr (by omega)
  have hcQ : (cols : ℚ) ≠ 0 := Nat.cast_ne_zero.mpr (by omega)
  have hlen : (tileBbox b rows cols).length = rows * cols := by
    rw [tileBbox_eq_map b rows cols hc0]
    simp
  refine ⟨hlen, ?_, ?_, ?_⟩
  · rw [tileBbox_eq_map b rows cols hc0, List.map_map]
    have hconst : (List.range (rows * cols)).map
        (bboxArea ∘ fun i => mkTile b rows cols (i / cols) (i % cols)) =
        List.replicate (rows * cols)
          ((b.north - b.south) / rows * ((b.east - b.west) / cols)) := by
      have h1 : (List.range (rows * cols)).map
          (bboxArea ∘ fun i => mkTile b rows cols (i / cols) (i % cols)) =
          (List.range (rows * cols)).map (Function.const ℕ
            ((b.north - b.south) / rows * ((b.east - b.west) / cols))) :=
        List.map_congr_left fun i _ => mkTile_area b rows cols _ _
      rw [h1, List.map_const, List.length_range]
    rw [hconst, List.sum_replicate, nsmul_eq_mul]
    rw [bboxArea]
    push_cast
    field_simp
  · intro r c hrlt hclt
    have hi : r * cols + c < rows * cols := by
      have h1 : r * cols + c < (r + 1) * cols := by
        have : c < cols := hclt
        calc r * cols + c < r * cols + cols := by omega
          _ = (r + 1) * cols := by ring
      have h2 : (r + 1) * cols ≤ rows * cols :=
        Nat.mul_le_mul_right _ (by omega)
      omega
    rw [tileBbox_getElem b rows cols hc0 _ hi]
    have hdiv : (r * cols + c) / cols = r := by
      rw [Nat.mul_comm r cols, Nat.add_comm (cols * r) c,
        Nat.add_mul_div_left _ _ hc0, Nat.div_eq_of_lt hclt, Nat.zero_add]
    have hmod : (r * cols + c) % cols = c := by
      rw [Nat.mul_comm r cols, Nat.add_comm (cols * r) c,
        Nat.add_mul_mod_self_left, Nat.mod_eq_of_lt hclt]
    rw [hdiv, hmod]
  · intro i j ti tj hij hi hj
    have hilt : i < rows * cols := by
      by_contra hge
      rw [List.getElem?_eq_none (by rw [hlen]; omega)] at hi
      exact Option.noConfusion hi
    have hjlt : j < rows * cols := by
      by_contra hge
      rw [List.getElem?_eq_none (by rw [hlen]; omega)] at hj
      exact Option.noConfusion hj
    rw [tileBbox_getElem b rows cols hc0 _ hilt] at hi
    rw [tileBbox_getElem b rows cols hc0 _ hjlt] at hj
    obtain rfl : ti = mkTile b rows cols (i / cols) (i % cols) :=
      (Option.some_inj.mp hi).symm
    obtain rfl : tj = mkTile b rows cols (j / cols) (j % cols) :=
      (Option.some_inj.mp hj).symm
    refine mkTile_disjoint b rows cols hr0 hc0 hsn hwe ?_
    intro hpair
    apply hij
    have h1 : i / cols = j / cols := congrArg Prod.fst hpair
    have h2 : i % cols = j % cols := congrArg Prod.snd hpair
    calc i = cols * (i / cols) + i % cols := (Nat.div_add_mod i cols).symm
      _ = cols * (j / cols) + j % cols := by rw [h1, h2]
      _ = j := Nat.div_add_mod j cols

/-- C2 (witness): the theorem applied to the unit square with a 2 × 2 grid:
4 tiles whose areas sum to 1. -/
theorem tileBbox_partitions_witness :
    (tileBbox bboxUnit 2 2).length = 2 * 2 ∧
    ((tileBbox bboxUnit 2 2).map bboxArea).sum = bboxArea bboxUnit := by
  have h := tileBbox_partitions bboxUnit 2 2 (by norm_num) (by norm_num)
    (by norm_num [bboxUnit]) (by norm_num [bboxUnit])
  exact ⟨h.1, h.2.1⟩

/-- C5: for every orchestration run — over any provider behaviour, any
database-insert outcomes, any tag-filter groups and tiles, and any budgets —
the number of provider calls made never exceeds `maxCalls`, the number of
admitted places never exceeds `target` (admission stops mid-batch at the
target), the combinations called are exactly an initial segment of the
row-major filter-groups-outer / tiles-inner order, and the returned report
always carries the partial progress `{created, callsMade, finalDelayMs}` of
the final state, however early the run stopped. -/
theorem importRun_budgets {φ τ : Type} (provider : φ × τ → SearchResult)
    (createOk : ℕ → Bool) (filters : List φ) (tiles : List τ)
    (maxCalls target : ℕ) :
    (importRun provider createOk filters tiles maxCalls target).1.callsMade ≤
      maxCalls ∧
    (importRun provider createOk filters tiles maxCalls target).1.created ≤
      target ∧
    (importRun provider createOk filters tiles maxCalls target).2.visited =
      (comboList filters tiles).take
        (importRun provider createOk filters tiles maxCalls target).1.callsMade ∧
    (importRun provider createOk filters tiles maxCalls target).1 =
      ⟨(importRun provider createOk filters tiles maxCalls target).2.created,
       (importRun provider createOk filters tiles maxCalls target).2.calls,
       (importRun provider createOk filters tiles maxCalls
         target).2.throttle.delayMs⟩ := by
  refine ⟨?_, ?_, ?_, rfl⟩
  · exact orchLoop_calls_le provider createOk maxCalls target
      (comboList filters tiles) (orchInit (φ × τ)) (Nat.zero_le _)
  · exact orchLoop_created_le provider createOk maxCalls target
      (comboList filters tiles) (orchInit (φ × τ)) (Nat.zero_le _)
  · show (orchLoop provider createOk maxCalls target (comboList filters tiles)
        (orchInit (φ × τ))).visited = (comboList filters tiles).take
      (orchLoop provider createOk maxCalls target (comboList filters tiles)
        (orchInit (φ × τ))).calls
    obtain ⟨n, hv, hcalls⟩ := orchLoop_visited provider createOk maxCalls
      target (comboList filters tiles) (orchInit (φ × τ))
    rw [hv, hcalls]
    simp [orchInit]

/-- C8: every candidate returned by `guessEmails`, for every input and limit,
has a non-empty local part consisting only of characters in `[a-z0-9._+-]`
(hence no uppercase letters and no diacritics), with no leading dot, no
trailing dot, and no doubled dots. -/
theorem guessEmails_localPart_sanitized (input : GuessEmailInput) (limit : ℕ)
    (c : EmailCandidate) (hc : c ∈ guessEmails input limit) :
    c.localPart ≠ "" ∧
    (∀ ch ∈ c.localPart.data, allowedLocalChar ch = true) ∧
    c.localPart.data.head? ≠ some '.' ∧
    c.localPart.data.getLast? ≠ some '.' ∧
    noDoubleDot c.localPart.data = true := by
  have main : ∀ (d : String) (pats : List (String × Option String × ℤ)),
      c ∈ sortByScoreDesc (genLoop d limit pats [] 0) →
      c.localPart ≠ "" ∧
      (∀ ch ∈ c.localPart.data, allowedLocalChar ch = true) ∧
      c.localPart.data.head? ≠ some '.' ∧
      c.localPart.data.getLast? ≠ some '.' ∧
      noDoubleDot c.localPart.data = true := by
    intro d pats hmem
    rw [mem_sortByScoreDesc] at hmem
    obtain ⟨raw, hlp, hne, _⟩ := mem_genLoop _ _ _ _ _ _ hmem
    refine ⟨hne, ?_, ?_, ?_, ?_⟩
    · intro ch hch
      rw [hlp] at hch
      exact sanitizeLocal_allowed _ _ hch
    · rw [hlp]
      exact sanitizeLocal_head? _
    · rw [hlp]
      exact sanitizeLocal_getLast? _
    · rw [hlp]
      exact sanitizeLocal_noDoubleDot _
  rcases hdom : input.domain with _ | d
  · simp [guessEmails, hdom] at hc
  · by_cases hd : d = ""
    · simp [guessEmails, hdom, hd] at hc
    · cases hnorm : normalizeDomain d with
      | none => simp [guessEmails, hdom, hd, hnorm] at hc
      | some nd =>
        by_cases hnd : nd = ""
        · simp [guessEmails, hdom, hd, hnorm, hnd] at hc
        · simp [guessEmails, hdom, hd, hnorm, hnd] at hc
          exact main nd _ hc

/-- C8 (witness): the theorem applied to the top candidate
(`max.miller@example.com`) generated for first name `max`, last name
`miller`, domain `example.com`. -/
theorem guessEmails_localPart_sanitized_witness :
    ("max.miller" : String) ≠ "" ∧
    (∀ ch ∈ ("max.miller" : String).data, allowedLocalChar ch = true) ∧
    ("max.miller" : String).data.head? ≠ some '.' ∧
    ("max.miller" : String).data.getLast? ≠ some '.' ∧
    noDoubleDot ("max.miller" : String).data = true :=
  guessEmails_localPart_sanitized guessInputMM 15
    ⟨"max.miller@example.com", "max.miller", "example.com", "first.last", 100⟩
    (by decide)

/-- C9 (counterexample): the code only inspects the first 200 characters of
the error body (`text.slice(0, 200)`).  With a 500 response whose body is
197 filler characters followed by `rate`, the body does contain the
substring `rate`, yet `rateLimited` is `false` — so the claim's "true
exactly when the status is 429 or the error body text contains `rate`" fails
as stated. -/
theorem searchOsm_rate_truncation_cex :
    containsRate longRateBody = true ∧
    (searchOsmByBbox (.got 500 longRateBody []) "Berlin").rateLimited = false ∧
    (searchOsmByBbox (.got 500 longRateBody []) "Berlin").places = [] := by
  decide

/-- C9 (amended): `searchOsmByBbox` never throws — every fetch outcome,
including timeout, transport failure and an unparsable body (the `.failed`
case), maps to a resolved result: on failure it returns no places with
`rateLimited = false`; on a completed HTTP exchange the place list is empty
unless the status is 2xx, and `rateLimited` is true exactly when the status
is 429 or the response is non-2xx and the *first 200 characters* of its
error body contain the substring `rate` (case-insensitively). -/
theorem searchOsmByBbox_failure_semantics (status : ℕ) (body : String)
    (elements : List OsmElement) (city : String) :
    searchOsmByBbox .failed city = ⟨[], false⟩ ∧
    (searchOsmByBbox (.got status body elements) city).places =
      (if fetchOk status then toPlaces elements city else []) ∧
    (searchOsmByBbox (.got status body elements) city).rateLimited =
      (status == 429 ||
        (!fetchOk status && containsRate (String.mk (body.data.take 200)))) := by
  refine ⟨rfl, ?_, ?_⟩ <;>
    · unfold searchOsmByBbox overpassRequest
      by_cases h : fetchOk status <;> simp [h]

/-- C10: `guessEmails` truncates before sorting.  With both name parts
present and `limit = 6`, generation walks the fixed pattern-table order and
stops after `first.last, firstlast, f.last, first.l, first, last`; the
result therefore contains the `last` pattern (prior 65) and omits `flast`
(prior 88) — which the same input does generate when the limit is 15 — so
the returned list is not the 6 highest-scoring generatable candidates. -/
theorem guessEmails_truncates_before_sorting :
    ((guessEmails guessInputMM 6).map fun c => (c.pattern, c.score)) =
      [("first.last", 100), ("firstlast", 96), ("f.last", 94), ("first.l", 90),
       ("first", 70), ("last", 65)] ∧
    (∀ c ∈ guessEmails guessInputMM 6, c.pattern ≠ "flast") ∧
    (∃ c ∈ guessEmails guessInputMM 15, c.pattern = "flast" ∧ c.score = 88) := by
  decide
